import Mathlib
set_option maxHeartbeats 1000000
set_option maxRecDepth 8192
/- Verification of the document-conversion engine of ctxt_generator.py:
   whitespace normalisation, label shortening, HTML block extraction with
   bold-paragraph headings, list expansion, Q/A pairing, and the greedy
   bounded-size chunk packer. -/
namespace PolicyUpdater

/-- Whitespace test matching the Python regex class `\s` (and `str.strip`)
on the character repertoire this pipeline handles: ASCII whitespace plus the
no-break space. -/
def pyIsSpace (c : Char) : Bool :=
  c = ' ' || c = '\t' || c = '\n' || c = '\r' || c = '\x0b' || c = '\x0c' || c = '\xa0'

/-- Splits a character list into its maximal nonempty runs of non-whitespace
characters; the accumulator holds the current run reversed. -/
def tokensAux : List Char → List Char → List (List Char)
  | [], acc => if acc = [] then [] else [acc.reverse]
  | c :: cs, acc =>
    if pyIsSpace c then
      if acc = [] then tokensAux cs [] else acc.reverse :: tokensAux cs []
    else tokensAux cs (c :: acc)

/-- The whitespace-separated words of a character list. -/
def tokens (l : List Char) : List (List Char) := tokensAux l []

/-- Joins words with single spaces. -/
def joinWords : List (List Char) → List Char
  | [] => []
  | [w] => w
  | w :: ws => w ++ ' ' :: joinWords ws

/-- List-level core of `norm_ws`: collapsing every whitespace run to a single
space and trimming both ends is the same as joining the whitespace-separated
words with single spaces. -/
def normWsL (l : List Char) : List Char := joinWords (tokens l)

/-- Model of `norm_ws(s)` = `re.sub(r"\s+", " ", s or "").strip()`. -/
def norm_ws (s : String) : String := ⟨normWsL s.data⟩

/-- Model of Python `str.lstrip()` on a character list. -/
def lstripL (l : List Char) : List Char := l.dropWhile pyIsSpace

/-- Model of Python `str.rstrip()` on a character list. -/
def rstripL (l : List Char) : List Char := (l.reverse.dropWhile pyIsSpace).reverse

/-- Model of Python `str.strip()` on a character list. -/
def stripL (l : List Char) : List Char := rstripL (lstripL l)

/-- Model of Python `str.strip()`. -/
def pyStrip (s : String) : String := ⟨stripL s.data⟩

/-- Model of Python `str.rstrip()`. -/
def pyRstrip (s : String) : String := ⟨rstripL s.data⟩

/-- Punctuation class of the truncation regex in `shorten_label`:
`[,;:–—\-]`. -/
def isCutPunct (c : Char) : Bool :=
  c = ',' || c = ';' || c = ':' || c = '–' || c = '—' || c = '-'

/-- Model of the `re.search` over the reversed prefix inside
`shorten_label`: returns the match start, i.e. the index in the reversed
list of the first punctuation character immediately followed (in reversed
order) by a whitespace character. -/
def findPunctWs : List Char → Option Nat
  | p :: w :: rest =>
    if isCutPunct p && pyIsSpace w then some 0
    else (findPunctWs (w :: rest)).map Nat.succ
  | _ => none

/-- Model of `shorten_label(s, limit)` from ctxt_generator.py: normalize
whitespace; return unchanged when within `limit`; otherwise search the
reversed first-`limit` characters for punctuation followed (in reversed
order) by whitespace, cut there (`cut = limit - m.start()`), renormalize
and append the one-character ellipsis; with no such boundary, hard-cut at
`limit`, strip trailing whitespace and append the ellipsis. -/
def shorten_label (s : String) (limit : Nat) : String :=
  if (norm_ws s).length ≤ limit then norm_ws s
  else
    match findPunctWs ((norm_ws s).data.take limit).reverse with
    | some j => (⟨normWsL ((norm_ws s).data.take (limit - j))⟩ : String) ++ "…"
    | none => (⟨rstripL ((norm_ws s).data.take limit)⟩ : String) ++ "…"

/-- Model of Python `str.split(sep)` (single-character separator); the
accumulator holds the current piece reversed. -/
def splitCharAux (sep : Char) : List Char → List Char → List (List Char)
  | [], acc => [acc.reverse]
  | c :: cs, acc =>
    if c = sep then acc.reverse :: splitCharAux sep cs []
    else splitCharAux sep cs (c :: acc)

/-- Splits a character list at every occurrence of `sep`; like Python
`str.split`, always returns one more piece than separators. -/
def splitChar (sep : Char) (l : List Char) : List (List Char) := splitCharAux sep l []

/-- Model of Python `s.split(sep)` for a one-character separator. -/
def pySplit (s : String) (sep : Char) : List String :=
  (splitChar sep s.data).map (fun l => (⟨l⟩ : String))

/-- Model of `s.replace("\r\n", "\n").replace("\r", "\n")` from
`norm_multiline`. -/
def replCR : List Char → List Char
  | [] => []
  | '\r' :: '\n' :: rest => '\n' :: replCR rest
  | '\r' :: rest => '\n' :: replCR rest
  | c :: rest => c :: replCR rest

/-- Blank-line collapsing loop of `norm_multiline`: keeps at most one empty
line per run; the flag is the source's `prev_blank`. -/
def collapseBlanks : List (List Char) → Bool → List (List Char)
  | [], _ => []
  | ln :: rest, prevBlank =>
    if ln = [] then
      (if prevBlank then [] else [[]]) ++ collapseBlanks rest true
    else ln :: collapseBlanks rest false

/-- Model of `norm_multiline(s)`: normalize line endings, normalize
whitespace within each line, collapse blank-line runs to one, join and
strip. -/
def norm_multiline (s : String) : String :=
  let ls := (splitChar '\n' (replCR s.data)).map normWsL
  ⟨stripL (List.intercalate ['\n'] (collapseBlanks ls false))⟩

/-- Model of the post-table-rewrite BeautifulSoup DOM handled by the block
extractor: an element tree of named tags over text nodes
(NavigableStrings). The hyperlink rewrite (`<a href>` becomes
"text (url)") is a local in-place text substitution upstream of every
extraction modelled here and no claim involves anchors, so tag attributes
are not carried. -/
inductive Node where
  | text (s : String)
  | tag (name : String) (children : List Node)

mutual

/-- All descendant text-node strings of a node, in document order; the
list `el.get_text(sep)` joins. -/
def getStrings : Node → List String
  | .text s => [s]
  | .tag _ cs => getStringsList cs

def getStringsList : List Node → List String
  | [] => []
  | n :: ns => getStrings n ++ getStringsList ns

end

/-- Model of `extract_plain_text(el)` = `norm_ws(el.get_text(" "))`. -/
def extract_plain_text (n : Node) : String :=
  norm_ws (String.intercalate " " (getStrings n))

mutual

/-- Model of cloning an element and decomposing every nested `ul`/`ol`
(at any depth), as done for `li` text extraction. -/
def stripLists : Node → Node
  | .text s => .text s
  | .tag nm cs => .tag nm (stripListsList cs)

/-- One node of the clone: dropped when it is a list element, recursively
cleaned otherwise. -/
def stripListsKeep : Node → List Node
  | .text s => [.text s]
  | .tag nm cs =>
    if nm = "ul" ∨ nm = "ol" then [] else [.tag nm (stripListsList cs)]

def stripListsList : List Node → List Node
  | [] => []
  | n :: ns => stripListsKeep n ++ stripListsList ns

end

/-- Tests whether a node is a `strong` element. -/
def isStrongTag : Node → Bool
  | .text _ => false
  | .tag nm _ => nm == "strong"

/-- Model of `is_bold_heading_p(p)`: a `p` with at least one direct
`strong` child whose direct children are all invisible strings, `strong`,
or `br`. In the source a direct `u` child is accepted only when its parent
is a `strong` element, but a direct child's parent is the `p` itself, so
that condition is `"p" == "strong"` here. -/
def is_bold_heading_p : Node → Bool
  | .text _ => false
  | .tag nm cs =>
    nm == "p" && cs.any isStrongTag &&
    (cs.all fun c =>
      match c with
      | .text s => norm_ws s == "" || norm_ws s == "\xa0"
      | .tag nm2 _ => nm2 == "strong" || nm2 == "br" || (nm2 == "u" && "p" == "strong"))

/-- Model of `re.sub(r"\s*:\s*$", "", t)`: removes one trailing colon
together with surrounding trailing whitespace, when present. -/
def stripTrailColon (t : String) : String :=
  let r1 := rstripL t.data
  match r1.getLast? with
  | some ':' => ⟨rstripL r1.dropLast⟩
  | _ => t

/-- Heading label of a bold-heading paragraph: extracted text with a
trailing colon stripped. -/
def heading_text (n : Node) : String := stripTrailColon (extract_plain_text n)

/-- Shared tail of the Q/A marker regexes: `\s*[:.\-]\s+` after the
leading letter. -/
def qaMarkerTail (l : List Char) : Bool :=
  match l.dropWhile pyIsSpace with
  | p :: w :: _ => (p == ':' || p == '.' || p == '-') && pyIsSpace w
  | _ => false

/-- Model of `is_question_text(t)` = `re.match(r'^\s*[Qq]\s*[:.\-]\s+', t)`. -/
def is_question_text (t : String) : Bool :=
  match t.data.dropWhile pyIsSpace with
  | c :: rest => (c == 'Q' || c == 'q') && qaMarkerTail rest
  | [] => false

/-- Model of `is_answer_text(t)` = `re.match(r'^\s*[Aa]\s*[:.\-]\s+', t)`. -/
def is_answer_text (t : String) : Bool :=
  match t.data.dropWhile pyIsSpace with
  | c :: rest => (c == 'A' || c == 'a') && qaMarkerTail rest
  | [] => false

/-- Model of the source's `strip_q_or_a_prefix(t)`: removes one leading Q/A marker (the
greedy `\s+` eats all whitespace after the punctuation) and strips. -/
def strip_q_or_a_marker (t : String) : String :=
  match t.data.dropWhile pyIsSpace with
  | c :: rest =>
    if c == 'Q' || c == 'q' || c == 'A' || c == 'a' then
      match rest.dropWhile pyIsSpace with
      | p :: rest2 =>
        if (p == ':' || p == '.' || p == '-') &&
            (match rest2 with | w :: _ => pyIsSpace w | [] => false) then
          ⟨stripL (rest2.dropWhile pyIsSpace)⟩
        else pyStrip t
      | [] => pyStrip t
    else pyStrip t
  | [] => pyStrip t

/-- Indentation used by `list_to_lines`: two spaces per nesting level. -/
def indentSpaces (n : Nat) : String := ⟨List.replicate (2 * n) ' '⟩

mutual

/-- One direct child of a list in `list_to_lines`'s `walk_list`: an `li`
yields its bullet (skipped when its own text is empty) followed by its
nested lists one level deeper; other nodes yield nothing. -/
def listToLinesItem : Node → Nat → List String
  | .tag "li" cs, ind =>
    let txt := extract_plain_text (stripLists (.tag "li" cs))
    (if txt = "" then [] else [indentSpaces ind ++ "- " ++ txt]) ++ listToLinesSubs cs ind
  | _, _ => []

/-- The `li`-iteration of `walk_list` over a list's direct children. -/
def listToLinesItems : List Node → Nat → List String
  | [], _ => []
  | n :: ns, ind => listToLinesItem n ind ++ listToLinesItems ns ind

/-- One direct child of an `li`: a nested `ul`/`ol` is walked one level
deeper. -/
def listToLinesSub : Node → Nat → List String
  | .tag nm cs, ind =>
    if nm = "ul" ∨ nm = "ol" then listToLinesItems cs (ind + 1) else []
  | .text _, _ => []

/-- The direct nested-list recursion of `walk_list`. -/
def listToLinesSubs : List Node → Nat → List String
  | [], _ => []
  | n :: ns, ind => listToLinesSub n ind ++ listToLinesSubs ns ind

end

/-- Model of `list_to_lines(root_list)`: flattens a list element into
indented bullet lines. -/
def list_to_lines (root : Node) : List String :=
  match root with
  | .tag _ cs => listToLinesItems cs 0
  | .text _ => []

/-- An extracted block: breadcrumb path and text. -/
abbrev Block := List String × String

mutual

/-- One direct child of a list in `emit_list_blocks`: an `li` yields a
block `"- <item text>"` under the current trail (emitted even when the
text is empty) followed by its nested lists under the trail extended by
the shortened item label; other nodes yield nothing. -/
def emitItem : Node → List String → List Block
  | .tag "li" cs, trail =>
    let liText := extract_plain_text (stripLists (.tag "li" cs))
    (trail, "- " ++ liText) ::
      emitSubs cs (trail ++ [shorten_label liText 80])
  | _, _ => []

/-- The `li`-iteration of `emit_list_blocks` over a list's direct
children. -/
def emitItems : List Node → List String → List Block
  | [], _ => []
  | n :: ns, trail => emitItem n trail ++ emitItems ns trail

/-- One direct child of an `li`: a nested `ul`/`ol` has its items
emitted under the extended trail. -/
def emitSub : Node → List String → List Block
  | .tag nm cs, trail2 =>
    if nm = "ul" ∨ nm = "ol" then emitItems cs trail2 else []
  | .text _, _ => []

/-- The direct nested-list recursion of `emit_list_blocks`. -/
def emitSubs : List Node → List String → List Block
  | [], _ => []
  | n :: ns, trail2 => emitSub n trail2 ++ emitSubs ns trail2

end

/-- Model of `emit_list_blocks(ul, trail)`. -/
def emit_list_blocks (ul : Node) (trail : List String) : List Block :=
  match ul with
  | .tag _ cs => emitItems cs trail
  | .text _ => []

/-- Tag-name test for list elements. -/
def isListName (nm : String) : Bool := nm == "ul" || nm == "ol"

/-- The breadcrumb-continuation test of the Q/A scan: a repeated bold
heading is consumed only when it equals the first breadcrumb element. -/
def bcHeadMatch (bc : List String) (h : String) : Bool :=
  match bc with
  | [] => false
  | b0 :: _ => norm_ws h == norm_ws b0

/-- Model of `collect_answer_content(start, breadcrumb)` applied to the
list of following siblings: returns the collected answer lines and the
number of leading siblings the scan moved past. Text nodes are passed
over (they are not extracted, and the outer traversal ignores them
anyway). A consumed element is removed with `extract()`, which clears the
node's `next_sibling`; the loop condition
`while node and node.next_sibling` then reads that cleared pointer, so
the scan STOPS immediately after its first consumption — the `continue`
after each `extract()` never reaches another element. -/
def collect_answer_content (bc : List String) : List Node → List String × Nat
  | [] => ([], 0)
  | n :: rest =>
    match n with
    | .text _ =>
      let res := collect_answer_content bc rest
      (res.1, res.2 + 1)
    | .tag nm cs =>
      if nm = "p" ∧ is_bold_heading_p (.tag nm cs) = true then
        if bcHeadMatch bc (heading_text (.tag nm cs)) = true then ([], 1)
        else ([], 0)
      else if nm = "p" then
        let txt := extract_plain_text (.tag nm cs)
        if is_question_text txt = true then ([], 0)
        else
          let txt2 := if is_answer_text txt = true then strip_q_or_a_marker txt else txt
          ((if norm_ws txt2 ≠ "" then [txt2] else []), 1)
      else if isListName nm = true then
        (list_to_lines (.tag nm cs), 1)
      else ([], 0)

/-- Model of `push_block(text)`: multiline text goes through
`norm_multiline`, single-line text through `norm_ws`; empty results are
dropped. -/
def push_block (bc : List String) (text : String) : List Block :=
  let t := if text.data.contains '\n' then norm_multiline text else norm_ws text
  if t = "" then [] else [(bc, t)]

/-- Dropping a prefix of a node list never increases its size; used for the
traversal's termination after the Q/A scan consumes siblings. -/
def dropSizeLe (k : Nat) (l : List Node) : sizeOf (l.drop k) ≤ sizeOf l := by
  induction k generalizing l with
  | zero => simp
  | succ k ih =>
    cases l with
    | nil => simp
    | cons a l =>
      have h1 := ih (l := l)
      simp only [List.drop_succ_cons]
      have h2 : sizeOf l ≤ sizeOf (a :: l) := by simp
      omega

/-- Strict form of the drop bound against a consed node list. -/
def dropSizeLt (k : Nat) (a : Node) (l : List Node) : sizeOf (l.drop k) < sizeOf (a :: l) := by
  have h1 := dropSizeLe k l
  have h2 : sizeOf (a :: l) = 1 + sizeOf a + sizeOf l := by simp
  omega

/-- Model of the outer traversal of `build_blocks_from_html` (after the
table pre-pass): a worklist walk threading the mutable breadcrumb; bold
headings reset it, lists expand to blocks, question paragraphs trigger the
Q/A scan over their following siblings (then resume past the consumed
ones), plain paragraphs push a block, and any other element is replaced by
its children. -/
def buildLoop : List Node → List String → List Block × List String
  | [], bc => ([], bc)
  | n :: rest, bc =>
    match n with
    | .text _ => buildLoop rest bc
    | .tag nm cs =>
      if nm = "p" ∧ is_bold_heading_p (.tag nm cs) = true then
        buildLoop rest [heading_text (.tag nm cs)]
      else if isListName nm = true then
        let r := buildLoop rest bc
        (emit_list_blocks (.tag nm cs) bc ++ r.1, r.2)
      else if nm = "p" then
        let pTxt := extract_plain_text (.tag nm cs)
        if is_question_text pTxt = true then
          let q := strip_q_or_a_marker pTxt
          let res := collect_answer_content bc rest
          let a := pyStrip (String.intercalate "\n" res.1)
          let blk := if a ≠ "" then push_block bc ("Q: " ++ q ++ "\nA: " ++ a)
                     else push_block bc ("Q: " ++ q)
          let r := buildLoop (rest.drop res.2) bc
          (blk ++ r.1, r.2)
        else
          let r := buildLoop rest bc
          (push_block bc pTxt ++ r.1, r.2)
      else
        let rin := buildLoop cs bc
        let r := buildLoop rest rin.2
        (rin.1 ++ r.1, r.2)
termination_by ns _ => sizeOf ns
decreasing_by
  all_goals first
    | exact dropSizeLt _ _ _
    | (simp_wf; try omega)

/-- Model of `build_blocks_from_html` on a parsed (post-table-rewrite)
document: the outer traversal starting with an empty breadcrumb. -/
def build_blocks_from_html (doc : List Node) : List Block :=
  (buildLoop doc []).1

/-- A buffered chunk line: the path that the source passes to `add_line`
alongside the segment (recording which block's breadcrumb produced the
line); the emitted string chunks discard it. -/
abbrev TLine := List String × String

/-- The packer's state in `chunk_blocks`: emitted chunks (as line lists),
the buffered `current_lines`, the `current_breadcrumb` (`None` initially),
and the running `current_len` counter. -/
structure PackState where
  chunks : List (List TLine)
  lines : List TLine
  bc : Option (List String)
  len : Nat

/-- Model of `breadcrumb_header(path)`: labels shortened to 80 and joined
by " > "; empty for an empty path. -/
def breadcrumb_header (path : List String) : String :=
  if path = [] then "" else String.intercalate " > " (path.map (fun q => shorten_label q 80))

/-- Model of `start_new_chunk(path)`: flush a nonempty buffer, reset it,
seed the header line when the rendered header is nonempty, and return the
would-be length (the caller decides whether to store it, as in the
source). -/
def startNewChunk (st : PackState) (path : List String) : PackState × Nat :=
  let chunks := if st.lines = [] then st.chunks else st.chunks ++ [st.lines]
  let hdr := breadcrumb_header path
  if hdr = "" then ({ chunks := chunks, lines := [], bc := some path, len := st.len }, 0)
  else
    let line := "### " ++ hdr
    ({ chunks := chunks, lines := [(path, line)], bc := some path, len := st.len }, line.length + 1)

/-- The source's `len(current_lines[0]) + 1 if current_lines else 0`. -/
def headerLenOf (st : PackState) : Nat :=
  match st.lines with
  | [] => 0
  | l :: _ => l.2.length + 1

/-- Model of `add_line(seg, path)`: break to a fresh chunk when the
running length would exceed the limit, then append the segment. -/
def add_line (limit : Nat) (path : List String) (st : PackState) (seg : String) : PackState :=
  let st1 := if st.len + seg.length + 1 > limit then
      let q := startNewChunk st path
      { q.1 with len := headerLenOf q.1 }
    else st
  { st1 with lines := st1.lines ++ [(path, seg)], len := st1.len + seg.length + 1 }

/-- The wrap width `max(40, limit - 20)` used by the packer. -/
def wrapWidth (limit : Nat) : Nat := max 40 (limit - 20)

/-- Fuel-indexed splitting of an over-long word into width-sized pieces
(textwrap's `break_long_words`); the fuel is the word length, ample since
each step removes at least one character. -/
def breakWordAux (k : Nat) : Nat → List Char → List (List Char)
  | _, [] => []
  | 0, l => [l]
  | fuel + 1, l => if l.length ≤ k then [l] else l.take k :: breakWordAux k fuel (l.drop k)

/-- Splits one word into pieces of at most `k` characters. -/
def breakWord (k : Nat) (w : List Char) : List (List Char) := breakWordAux k w.length w

/-- Greedy line filling of `textwrap.wrap`: words are packed left to right
with single spaces, each line at most `k` characters. -/
def fillWords (k : Nat) : List (List Char) → List Char → List (List Char)
  | [], cur => if cur = [] then [] else [cur]
  | w :: ws, cur =>
    if cur = [] then fillWords k ws w
    else if cur.length + 1 + w.length ≤ k then fillWords k ws (cur ++ ' ' :: w)
    else cur :: fillWords k ws w

/-- Model of `textwrap.wrap(s, width)` under its default settings:
whitespace collapsed, long words broken to the width, lines filled
greedily. (Default hyphen splitting of compound words is not modelled; no
claim exercises it.) -/
def textwrapWrap (s : String) (width : Nat) : List String :=
  let k := max 1 width
  let ws := (tokens s.data).flatMap (breakWord k)
  (fillWords k ws []).map (fun l => (⟨l⟩ : String))

/-- Model of `re.match(r"^(\s*-\s+)", line)`: the leading bullet marker
(leading whitespace, a dash, at least one following whitespace), greedily
matched. -/
def bulletMark (l : List Char) : Option (List Char) :=
  let sp := l.takeWhile pyIsSpace
  match l.drop sp.length with
  | '-' :: rest =>
    let sp2 := rest.takeWhile pyIsSpace
    if sp2 = [] then none else some (sp ++ '-' :: sp2)
  | _ => none

/-- Whether `pat` occurs as a contiguous segment of `l` (Python `in`). -/
def containsSeg (pat : List Char) : List Char → Bool
  | [] => pat.isEmpty
  | c :: cs => pat.isPrefixOf (c :: cs) || containsSeg pat cs

/-- The packer's Q/A-block test:
`text.lstrip().startswith("Q:") and "\nA:" in text`. -/
def is_qa_block (text : String) : Bool :=
  (['Q', ':'].isPrefixOf (text.data.dropWhile pyIsSpace)) &&
    containsSeg ['\n', 'A', ':'] text.data

/-- Starting a new chunk and storing its returned length, as the block
loop and the Q/A pre-break do. -/
def freshFor (st : PackState) (path : List String) : PackState :=
  let q := startNewChunk st path
  { q.1 with len := q.2 }

/-- Per-line body of the multi-line branch of the `chunk_blocks` loop:
right-strip, wrap when the line alone would overflow, and add the
segments. -/
def lineStep (limit : Nat) (path : List String) (st : PackState) (ln : String) : PackState :=
  let ln2 := pyRstrip ln
  if ln2.length + st.len > limit then
    (let w := textwrapWrap ln2 (wrapWidth limit); if w = [] then [ln2] else w).foldl
      (add_line limit path) st
  else add_line limit path st ln2

/-- Per-segment body of the single-line wrap branch: re-attach the bullet
marker to continuation segments. -/
def segStep (limit : Nat) (path : List String) (pfx : String) (st : PackState)
    (w : String) : PackState :=
  let seg := if pfx ≠ "" ∧ ¬(List.isPrefixOf pfx.data w.data = true) then pfx ++ w else w
  add_line limit path st seg

/-- Model of the per-block body of the `chunk_blocks` loop. -/
def processBlock (limit : Nat) (st : PackState) (b : Block) : PackState :=
  let path := b.1
  let text := b.2
  let st1 := if st.bc ≠ some path then freshFor st path else st
  let st2 := if is_qa_block text = true ∧ st1.len + text.length + 1 > limit then
      freshFor st1 path
    else st1
  if text.data.contains '\n' then
    (pySplit text '\n').foldl (lineStep limit path) st2
  else
    if text.length + st2.len > limit then
      let pfx : String := match bulletMark text.data with | some m => ⟨m⟩ | none => ""
      (let w := textwrapWrap text (wrapWidth limit); if w = [] then [text] else w).foldl
        (segStep limit path pfx) st2
    else add_line limit path st2 text

/-- The packer's initial state. -/
def initPackState : PackState := ⟨[], [], none, 0⟩

/-- Model of `chunk_blocks` at the granularity of tagged line lists (every
chunk as its list of buffered lines, before joining and stripping). -/
def chunkBlocksT (blocks : List Block) (limit : Nat) : List (List TLine) :=
  let st := blocks.foldl (processBlock limit) initPackState
  st.chunks ++ (if st.lines = [] then [] else [st.lines])

/-- Serializes one chunk: `"\n".join(current_lines).strip()`. -/
def renderChunk (c : List TLine) : String :=
  pyStrip (String.intercalate "\n" (c.map (fun l => l.2)))

/-- Model of `chunk_blocks(blocks, limit)`. -/
def chunk_blocks (blocks : List Block) (limit : Nat) : List String :=
  (chunkBlocksT blocks limit).map renderChunk

/-- Model of the output-file composition in `process_files`: the metadata
preamble (version, title, tags, optional source-url line, blank line)
followed by the stripped chunks, each ending in a blank line. -/
def render_ctxt (base runTag : String) (url : Option String) (chunks : List String) : String :=
  let tagsValue := "policies" ++ (if runTag = "" then "" else ", " ++ runTag)
  let urlLine := match url with
    | some u => "`source_url: " ++ u ++ "`\n"
    | none => ""
  "`version: 1`\n" ++ "`title: " ++ base ++ "`\n" ++ "`tags: [" ++ tagsValue ++ "]`\n" ++
    urlLine ++ "\n" ++ String.join (chunks.map (fun c => pyStrip c ++ "\n\n"))

/-- The accounting the source keeps per chunk: each line counted with one
separator character (the header line included). -/
def chunkMeasure (c : List TLine) : Nat := (c.map (fun l => l.2.length + 1)).sum

/-- Length contributed by a fresh chunk's header for a path: the rendered
header line plus its separator, or nothing when the header renders
empty. -/
def pathBase (path : List String) : Nat :=
  if breadcrumb_header path = "" then 0 else ("### " ++ breadcrumb_header path).length + 1

/-- The tagged lines a Q/A block's text contributes when no wrapping
occurs: its newline-split lines, each right-stripped. -/
def qaTagLines (path : List String) (text : String) : List TLine :=
  (pySplit text '\n').map (fun ln => (path, pyRstrip ln))

/-- The whitespace-separated tokens of a rendered chunk (used to state the
"unbreakable token" exception of the chunk-size bound). -/
def strTokens (s : String) : List String :=
  (tokens s.data).map (fun w => (⟨w⟩ : String))

/-- Claim C6's wording of the heading condition: the only meaningful
children are bold-emphasis wrappers, optionally with line breaks, and
there is no other visible text. -/
def headingSpecCond : Node → Prop
  | .text _ => False
  | .tag nm cs =>
    nm = "p" ∧ (∃ c ∈ cs, ∃ ss, c = Node.tag "strong" ss) ∧
      ∀ c ∈ cs, (∃ s, c = Node.text s ∧ norm_ws s = "") ∨
        (∃ ss, c = Node.tag "strong" ss) ∨ (∃ ss, c = Node.tag "br" ss)

/-- The packing invariant behind the amended chunk-size bound: the length
counter mirrors the buffered measure, and every chunk (buffered or
emitted) either fits the limit or holds at most a header line plus one
content line. -/
def packInv (limit : Nat) (st : PackState) : Prop :=
  st.len = chunkMeasure st.lines ∧
  (∀ c ∈ st.chunks, chunkMeasure c ≤ limit ∨ c.length ≤ 2) ∧
  (chunkMeasure st.lines ≤ limit ∨ st.lines.length ≤ 2)

/-- Per-chunk shape for the amended breadcrumb-header claim: all lines
carry one path, and when that path renders a nonempty header the chunk
starts with exactly that header line. -/
def chunkOkTag (c : List TLine) : Prop :=
  ∃ p : List String, (∀ l ∈ c, l.1 = p) ∧
    (breadcrumb_header p ≠ "" → c.head? = some (p, "### " ++ breadcrumb_header p))

/-- The packer invariant behind the amended breadcrumb-header claim. -/
def tagInv (st : PackState) : Prop :=
  (st.bc = none → st.lines = []) ∧
  (∀ p : List String, st.bc = some p →
    (∀ l ∈ st.lines, l.1 = p) ∧
    (breadcrumb_header p ≠ "" → st.lines.head? = some (p, "### " ++ breadcrumb_header p))) ∧
  (∀ c ∈ st.chunks, chunkOkTag c)

/-- `a` occurs as a contiguous segment of `b`. -/
def segIn (a b : List TLine) : Prop := ∃ pre post : List TLine, b = pre ++ a ++ post

/-- The Q/A lines sit whole inside one already-emitted chunk or inside the
chunk in progress. -/
def qaPlaced (ql : List TLine) (st : PackState) : Prop :=
  (∃ c ∈ st.chunks, segIn ql c) ∨ segIn ql st.lines

theorem joinWords_cons (w : List Char) (ws : List (List Char)) :
    joinWords (w :: ws) = w ++ (if ws = [] then [] else ' ' :: joinWords ws) := by
  cases ws <;> simp [joinWords]

theorem tokensAux_words :
    ∀ (l acc : List Char), (∀ c ∈ acc, pyIsSpace c = false) →
      ∀ w ∈ tokensAux l acc, w ≠ [] ∧ ∀ c ∈ w, pyIsSpace c = false := by
  intro l
  induction l with
  | nil =>
    intro acc hacc w hw
    by_cases h : acc = []
    · simp [tokensAux, h] at hw
    · simp [tokensAux, h] at hw
      subst hw
      refine ⟨by simpa using h, ?_⟩
      intro c hc
      exact hacc c (by simpa using hc)
  | cons c cs ih =>
    intro acc hacc w hw
    by_cases hsp : pyIsSpace c
    · by_cases h : acc = []
      · simp [tokensAux, hsp, h] at hw
        exact ih [] (by simp) w hw
      · simp [tokensAux, hsp, h] at hw
        rcases hw with hw | hw
        · subst hw
          refine ⟨by simpa using h, ?_⟩
          intro d hd
          exact hacc d (by simpa using hd)
        · exact ih [] (by simp) w hw
    · simp only [tokensAux, hsp, if_false, Bool.false_eq_true] at hw
      refine ih (c :: acc) ?_ w hw
      intro d hd
      rcases List.mem_cons.mp hd with h | h
      · subst h; simpa using hsp
      · exact hacc d h

theorem tokens_words (l : List Char) :
    ∀ w ∈ tokens l, w ≠ [] ∧ ∀ c ∈ w, pyIsSpace c = false :=
  tokensAux_words l [] (by simp)

theorem tokensAux_append_word :
    ∀ (w l acc : List Char), (∀ c ∈ w, pyIsSpace c = false) →
      tokensAux (w ++ l) acc = tokensAux l (w.reverse ++ acc) := by
  intro w
  induction w with
  | nil => intro l acc _; simp
  | cons c w' ih =>
    intro l acc hw
    have hc : pyIsSpace c = false := hw c (by simp)
    have hw' : ∀ d ∈ w', pyIsSpace d = false := fun d hd => hw d (by simp [hd])
    simp only [List.cons_append, tokensAux, hc, Bool.false_eq_true, if_false]
    show tokensAux (w' ++ l) (c :: acc) = tokensAux l ((c :: w').reverse ++ acc)
    rw [ih l (c :: acc) hw']
    simp

theorem tokensAux_space (l acc : List Char) :
    tokensAux (' ' :: l) acc =
      if acc = [] then tokensAux l [] else acc.reverse :: tokensAux l [] := by
  simp [tokensAux, pyIsSpace]

theorem tokens_join :
    ∀ ws : List (List Char),
      (∀ w ∈ ws, w ≠ [] ∧ ∀ c ∈ w, pyIsSpace c = false) →
      tokens (joinWords ws) = ws := by
  intro ws
  induction ws with
  | nil => intro _; rfl
  | cons w ws ih =>
    intro h
    have hw := h w (by simp)
    have hws : ∀ u ∈ ws, u ≠ [] ∧ ∀ c ∈ u, pyIsSpace c = false :=
      fun u hu => h u (by simp [hu])
    cases ws with
    | nil =>
      show tokens (joinWords [w]) = [w]
      have : joinWords [w] = w ++ [] := by simp [joinWords]
      rw [this]
      unfold tokens
      rw [tokensAux_append_word w [] [] hw.2]
      simp [tokensAux, hw.1]
    | cons w2 ws2 =>
      show tokens (w ++ ' ' :: joinWords (w2 :: ws2)) = w :: w2 :: ws2
      unfold tokens
      rw [tokensAux_append_word w (' ' :: joinWords (w2 :: ws2)) [] hw.2]
      rw [List.append_nil, tokensAux_space]
      have hne : w.reverse ≠ [] := by simpa using hw.1
      simp only [hne, if_false, List.reverse_reverse]
      exact congrArg (w :: ·) (ih hws)

theorem normWsL_idem (l : List Char) : normWsL (normWsL l) = normWsL l := by
  unfold normWsL
  rw [tokens_join (tokens l) (tokens_words l)]

theorem joinWords_tokensAux_length :
    ∀ (l acc : List Char),
      (joinWords (tokensAux l acc)).length ≤ l.length + acc.length := by
  intro l
  induction l with
  | nil =>
    intro acc
    by_cases h : acc = []
    · simp [tokensAux, h, joinWords]
    · simp [tokensAux, h, joinWords]
  | cons c cs ih =>
    intro acc
    by_cases hsp : pyIsSpace c
    · by_cases h : acc = []
      · simp only [tokensAux, hsp, if_true, h]
        have := ih []
        simp at this
        simp [List.length_cons]
        omega
      · simp only [tokensAux, hsp, if_true, h, if_false]
        rw [joinWords_cons]
        by_cases ht : tokensAux cs [] = []
        · simp [ht]
        · simp only [ht, if_false]
          have := ih []
          simp at this
          simp [List.length_append]
          omega
    · simp only [tokensAux, hsp, Bool.false_eq_true, if_false]
      have := ih (c :: acc)
      simp at this
      simp [List.length_cons]
      omega

theorem normWsL_length_le (l : List Char) : (normWsL l).length ≤ l.length := by
  have := joinWords_tokensAux_length l []
  simpa [normWsL, tokens] using this

theorem normWsL_ne_nbsp (l : List Char) : normWsL l ≠ ['\xa0'] := by
  unfold normWsL
  intro h
  rcases hts : tokens l with _ | ⟨w, ws⟩
  · rw [hts] at h; simp [joinWords] at h
  · have hw := tokens_words l w (by rw [hts]; simp)
    rw [hts, joinWords_cons] at h
    by_cases hws : ws = []
    · simp only [hws, if_pos] at h
      rw [List.append_nil] at h
      subst h
      have := hw.2 '\xa0' (by simp)
      simp [pyIsSpace] at this
    · simp only [hws, if_neg, ite_false] at h
      cases w with
      | nil => exact hw.1 rfl
      | cons d w' =>
        have := congrArg List.length h
        simp [List.length_append] at this

theorem rstripL_length_le (l : List Char) : (rstripL l).length ≤ l.length := by
  have h := (List.dropWhile_suffix (l := l.reverse) pyIsSpace).length_le
  simpa [rstripL] using h

theorem string_mk_length (l : List Char) : (⟨l⟩ : String).length = l.length := rfl

/-- C5 (amended): shorten_label returns at most `limit + 1` characters
(content at most `limit`, plus the one-character ellipsis appended on
truncation); an input whose normalization already fits is returned
normalized and unchanged; a longer input yields a cut core of at most
`limit` characters followed by the ellipsis. -/
theorem shorten_label_amended (s : String) (limit : Nat) :
    (shorten_label s limit).length ≤ limit + 1 ∧
    ((norm_ws s).length ≤ limit → shorten_label s limit = norm_ws s) ∧
    (limit < (norm_ws s).length →
      ∃ core : String, core.length ≤ limit ∧ shorten_label s limit = core ++ "…") := by
  by_cases h : (norm_ws s).length ≤ limit
  · have he : shorten_label s limit = norm_ws s := by
      unfold shorten_label; rw [if_pos h]
    exact ⟨by rw [he]; omega, fun _ => he, fun hlt => absurd h (by omega)⟩
  · obtain ⟨core, hlen, he⟩ :
        ∃ core : String, core.length ≤ limit ∧ shorten_label s limit = core ++ "…" := by
      unfold shorten_label
      rw [if_neg h]
      rcases hf : findPunctWs ((norm_ws s).data.take limit).reverse with _ | j
      · refine ⟨⟨rstripL ((norm_ws s).data.take limit)⟩, ?_, rfl⟩
        rw [string_mk_length]
        calc (rstripL ((norm_ws s).data.take limit)).length
            ≤ ((norm_ws s).data.take limit).length := rstripL_length_le _
          _ ≤ limit := by simp
      · refine ⟨⟨normWsL ((norm_ws s).data.take (limit - j))⟩, ?_, rfl⟩
        rw [string_mk_length]
        calc (normWsL ((norm_ws s).data.take (limit - j))).length
            ≤ ((norm_ws s).data.take (limit - j)).length := normWsL_length_le _
          _ ≤ limit - j := by simp
          _ ≤ limit := Nat.sub_le _ _
    have hlen2 : (core ++ "…").length = core.length + 1 := by
      rw [String.length_append]; rfl
    exact ⟨by rw [he, hlen2]; omega, fun hc => absurd hc h, fun _ => ⟨core, hlen, he⟩⟩

theorem norm_ws_ne_nbsp (s : String) : norm_ws s ≠ "\xa0" := by
  intro h
  exact normWsL_ne_nbsp s.data (congrArg String.data h)

/-- C9: inline normalization is idempotent: `norm_ws (norm_ws s) = norm_ws s`
for every string, where `norm_ws` collapses every whitespace run (newlines
included) to one space and trims the ends. -/
theorem norm_ws_idempotent (s : String) : norm_ws (norm_ws s) = norm_ws s := by
  show (⟨normWsL (norm_ws s).data⟩ : String) = (⟨normWsL s.data⟩ : String)
  have h : (norm_ws s).data = normWsL s.data := rfl
  rw [h, normWsL_idem]

/-- C5 counterexample: with `s = "ab, cdefghij"` and `limit = 6` the input has
a punctuation-followed-by-space boundary (", " after "ab") inside the first 6
characters, yet the code hard-cuts and returns "ab, cd…", which moreover has
7 > 6 characters — refuting both the at-most-`limit` length clause and the
cut-at-punctuation-then-space clause of the claim. -/
theorem shorten_label_claim_counterexample :
    shorten_label "ab, cdefghij" 6 = "ab, cd…" ∧
    (shorten_label "ab, cdefghij" 6).length = 7 ∧ 6 < 7 :=
  ⟨by decide, by decide, by omega⟩

/-- C5 witness: the amended theorem applied at `s = "abcd"`, `limit = 2`. -/
theorem shorten_label_amended_witness :
    (shorten_label "abcd" 2).length ≤ 3 ∧
    ∃ core : String, core.length ≤ 2 ∧ shorten_label "abcd" 2 = core ++ "…" :=
  ⟨(shorten_label_amended "abcd" 2).1, (shorten_label_amended "abcd" 2).2.2 (by decide)⟩

/-- C7 counterexample: a parent item whose text is 81 characters long
produces a nested breadcrumb label of 81 characters (80 plus the ellipsis),
refuting the claim's "shortened to at most 80 characters". -/
theorem emit_list_blocks_label_counterexample :
    emit_list_blocks
        (Node.tag "ul" [Node.tag "li" [Node.text (⟨List.replicate 81 'a'⟩ : String),
          Node.tag "ul" [Node.tag "li" [Node.text "Sub1"]]]]) []
      = [([], "- " ++ (⟨List.replicate 81 'a'⟩ : String)),
         ([(⟨List.replicate 80 'a'⟩ : String) ++ "…"], "- Sub1")] ∧
    ((⟨List.replicate 80 'a'⟩ : String) ++ "…").length = 81 ∧ 80 < 81 :=
  ⟨by decide, by decide, by omega⟩

/-- C7 (amended): a directly encountered list yields one block
`"- <item text>"` per top-level item under the unchanged trail, and a
nested list's items are emitted under the trail extended by the parent
item's label shortened with the label shortener at limit 80 (at most 81
characters including its ellipsis); in particular the
`Item1 / Item2 / Sub1` scenario yields exactly its three blocks in
order. -/
theorem emit_list_blocks_amended :
    emit_list_blocks
        (Node.tag "ul" [Node.tag "li" [Node.text "Item1"],
          Node.tag "li" [Node.text "Item2", Node.tag "ul" [Node.tag "li" [Node.text "Sub1"]]]]) []
      = [([], "- Item1"), ([], "- Item2"), (["Item2"], "- Sub1")] ∧
    (∀ (cs : List Node) (trail : List String),
      emitItem (Node.tag "li" cs) trail =
        (trail, "- " ++ extract_plain_text (stripLists (Node.tag "li" cs))) ::
          emitSubs cs
            (trail ++ [shorten_label (extract_plain_text (stripLists (Node.tag "li" cs))) 80])) ∧
    (∀ (n : Node) (ns : List Node) (trail : List String),
      emitItems (n :: ns) trail = emitItem n trail ++ emitItems ns trail) := by
  refine ⟨by decide, fun cs trail => rfl, fun n ns trail => rfl⟩

/-- C10: every list item whose extracted text (nested lists removed) is
empty after normalization still contributes a block whose text is exactly
`"- "` under the current trail, followed only by its nested-list blocks;
by contrast, a paragraph whose text normalizes to empty pushes no
block. -/
theorem empty_list_item_block :
    (∀ (cs : List Node) (trail : List String),
      extract_plain_text (stripLists (Node.tag "li" cs)) = "" →
      ∃ nested : List Block, emitItem (Node.tag "li" cs) trail = (trail, "- ") :: nested) ∧
    (∀ (bc : List String) (text : String),
      text.data.contains '\n' = false → norm_ws text = "" → push_block bc text = []) := by
  constructor
  · intro cs trail h
    refine ⟨emitSubs cs (trail ++ [shorten_label
      (extract_plain_text (stripLists (Node.tag "li" cs))) 80]), ?_⟩
    have he : emitItem (Node.tag "li" cs) trail =
        (trail, "- " ++ extract_plain_text (stripLists (Node.tag "li" cs))) ::
          emitSubs cs (trail ++ [shorten_label
            (extract_plain_text (stripLists (Node.tag "li" cs))) 80]) := rfl
    rw [he]
    rw [h, String.append_empty]
  · intro bc text hnl hns
    unfold push_block
    rw [hnl]
    simp only [Bool.false_eq_true, if_neg, ite_false, hns]
    rfl

/-- C10 witness: the universal statement applied to an item holding only
whitespace text and a nested list, and to the empty paragraph. -/
theorem empty_list_item_block_witness :
    (∃ nested : List Block,
      emitItem (Node.tag "li" [Node.text "  ",
        Node.tag "ul" [Node.tag "li" [Node.text "S"]]]) ["X"] = ((["X"], "- ")) :: nested) ∧
    push_block [] "" = [] :=
  ⟨empty_list_item_block.1 [Node.text "  ", Node.tag "ul" [Node.tag "li" [Node.text "S"]]]
      ["X"] (by decide),
    empty_list_item_block.2 [] "" (by decide) (by decide)⟩

/-- C6: a paragraph is detected as a bold heading exactly when its only
meaningful children are `strong` wrappers (line breaks and invisible text
allowed, a directly underlined child never qualifying since its parent is
the paragraph), and on detection the traversal resets the breadcrumb to the
single-element path holding the paragraph's text with a trailing colon
stripped — never pushing onto the prior path. -/
theorem bold_heading_detection :
    (∀ n : Node, is_bold_heading_p n = true ↔ headingSpecCond n) ∧
    (∀ (n : Node) (bc : List String) (rest : List Node),
      is_bold_heading_p n = true →
      buildLoop (n :: rest) bc = buildLoop rest [heading_text n]) := by
  constructor
  · intro n
    cases n with
    | text s => simp [is_bold_heading_p, headingSpecCond]
    | tag nm cs =>
      simp only [is_bold_heading_p, headingSpecCond, Bool.and_eq_true, beq_iff_eq,
        List.any_eq_true, List.all_eq_true]
      constructor
      · rintro ⟨⟨hp, c, hc, hstrong⟩, hall⟩
        refine ⟨hp, ?_, ?_⟩
        · cases c with
          | text s => simp [isStrongTag] at hstrong
          | tag nm2 ss =>
            have h2 : nm2 = "strong" := by simpa [isStrongTag] using hstrong
            exact ⟨_, hc, ss, by rw [h2]⟩
        · intro d hd
          have hdall := hall d hd
          cases d with
          | text s =>
            left
            refine ⟨s, rfl, ?_⟩
            rcases (by simpa using hdall : norm_ws s = "" ∨ norm_ws s = "\xa0") with h | h
            · exact h
            · exact absurd h (norm_ws_ne_nbsp s)
          | tag nm2 ss =>
            rcases (by simpa using hdall :
                nm2 = "strong" ∨ nm2 = "br" ∨ (nm2 = "u" ∧ ("p" : String) = "strong"))
              with h | h | h
            · exact Or.inr (Or.inl ⟨ss, by rw [h]⟩)
            · exact Or.inr (Or.inr ⟨ss, by rw [h]⟩)
            · exact absurd h.2 (by decide)
      · rintro ⟨hp, ⟨c, hc, ss, hceq⟩, hall⟩
        refine ⟨⟨hp, c, hc, ?_⟩, ?_⟩
        · subst hceq; simp [isStrongTag]
        · intro d hd
          rcases hall d hd with ⟨s, rfl, hns⟩ | ⟨ss2, rfl⟩ | ⟨ss2, rfl⟩
          · simp [hns]
          · simp
          · simp
  · intro n bc rest h
    obtain ⟨nm, cs, rfl⟩ : ∃ nm cs, n = Node.tag nm cs := by
      cases n with
      | text s => simp [is_bold_heading_p] at h
      | tag nm cs => exact ⟨nm, cs, rfl⟩
    have hp : nm = "p" := by
      have h2 := h
      simp only [is_bold_heading_p, Bool.and_eq_true, beq_iff_eq] at h2
      exact h2.1.1
    subst hp
    rw [buildLoop.eq_def]
    simp [h]

/-- C6 witness: the reset equation applied to a concrete bold heading. -/
theorem bold_heading_detection_witness :
    buildLoop [Node.tag "p" [Node.tag "strong" [Node.text "Leave Policy:"]],
        Node.tag "p" [Node.text "x"]] [] =
      buildLoop [Node.tag "p" [Node.text "x"]]
        [heading_text (Node.tag "p" [Node.tag "strong" [Node.text "Leave Policy:"]])] :=
  bold_heading_detection.2 _ [] _ (by decide)

/-- C8: an empty block sequence yields zero chunks, and the writer then
produces exactly the metadata preamble (version, title, tags, optional
source-url line, blank line) with no chunk text. -/
theorem empty_document_output (limit : Nat) (base runTag : String) (url : Option String) :
    chunk_blocks ([] : List Block) limit = [] ∧
    render_ctxt base runTag url (chunk_blocks [] limit) =
      "`version: 1`\n" ++ "`title: " ++ base ++ "`\n" ++
        "`tags: [" ++ ("policies" ++ (if runTag = "" then "" else ", " ++ runTag)) ++ "]`\n" ++
        (match url with
          | some u => "`source_url: " ++ u ++ "`\n"
          | none => "") ++ "\n" := by
  have h1 : chunk_blocks ([] : List Block) limit = [] := rfl
  refine ⟨h1, ?_⟩
  rw [h1]
  show render_ctxt base runTag url [] = _
  simp [render_ctxt, String.join]

theorem chunkMeasure_append (a b : List TLine) :
    chunkMeasure (a ++ b) = chunkMeasure a + chunkMeasure b := by
  simp [chunkMeasure]

theorem chunkMeasure_single (l : TLine) : chunkMeasure [l] = l.2.length + 1 := by
  simp [chunkMeasure]

theorem foldl_pres {σ α : Type} (P : σ → Prop) (f : σ → α → σ)
    (hf : ∀ s a, P s → P (f s a)) :
    ∀ (l : List α) (s : σ), P s → P (l.foldl f s) := by
  intro l
  induction l with
  | nil => intro s hs; simpa using hs
  | cons a l ih => intro s hs; simpa using ih (f s a) (hf s a hs)

theorem startNewChunk_len_eq (st : PackState) (path : List String) :
    headerLenOf (startNewChunk st path).1 = (startNewChunk st path).2 ∧
    (startNewChunk st path).2 = chunkMeasure (startNewChunk st path).1.lines ∧
    (startNewChunk st path).1.lines.length ≤ 1 := by
  unfold startNewChunk headerLenOf
  by_cases hh : breadcrumb_header path = "" <;> simp [hh, chunkMeasure]

theorem startNewChunk_bc (st : PackState) (path : List String) :
    (startNewChunk st path).1.bc = some path := by
  unfold startNewChunk
  by_cases hh : breadcrumb_header path = "" <;> simp [hh]

theorem startNewChunk_chunks_sub (st : PackState) (path : List String) :
    ∀ c ∈ (startNewChunk st path).1.chunks, c ∈ st.chunks ∨ c = st.lines := by
  have h : (startNewChunk st path).1.chunks = st.chunks ∨
      (startNewChunk st path).1.chunks = st.chunks ++ [st.lines] := by
    unfold startNewChunk
    by_cases hl : st.lines = [] <;> by_cases hh : breadcrumb_header path = "" <;> simp [hl, hh]
  intro c hc
  rcases h with h | h <;> rw [h] at hc
  · exact Or.inl hc
  · rcases List.mem_append.mp hc with h2 | h2
    · exact Or.inl h2
    · exact Or.inr (by simpa using h2)

theorem startNewChunk_lines (st : PackState) (path : List String) :
    (startNewChunk st path).1.lines = [] ∨
    (startNewChunk st path).1.lines = [(path, "### " ++ breadcrumb_header path)] := by
  unfold startNewChunk
  by_cases hh : breadcrumb_header path = "" <;> simp [hh]

theorem packInv_freshFor (limit : Nat) (st : PackState) (path : List String)
    (h : packInv limit st) : packInv limit (freshFor st path) := by
  obtain ⟨h1, h2, h3⟩ := h
  obtain ⟨e1, e2, e3⟩ := startNewChunk_len_eq st path
  refine ⟨?_, ?_, ?_⟩
  · show (freshFor st path).len = chunkMeasure (freshFor st path).lines
    unfold freshFor
    simpa using e2
  · intro c hc
    have hc2 : c ∈ (startNewChunk st path).1.chunks := by
      unfold freshFor at hc; simpa using hc
    rcases startNewChunk_chunks_sub st path c hc2 with h | h
    · exact h2 c h
    · subst h; exact h3
  · right
    show (freshFor st path).lines.length ≤ 2
    unfold freshFor
    simpa using Nat.le_trans e3 (by omega)

theorem packInv_add_line (limit : Nat) (path : List String) (st : PackState) (seg : String)
    (h : packInv limit st) : packInv limit (add_line limit path st seg) := by
  obtain ⟨h1, h2, h3⟩ := h
  unfold add_line
  by_cases hov : st.len + seg.length + 1 > limit
  · obtain ⟨e1, e2, e3⟩ := startNewChunk_len_eq st path
    simp only [hov, if_pos]
    refine ⟨?_, ?_, ?_⟩
    · show headerLenOf (startNewChunk st path).1 + seg.length + 1 =
        chunkMeasure ((startNewChunk st path).1.lines ++ [(path, seg)])
      rw [chunkMeasure_append, chunkMeasure_single, e1, e2]
      simp
      try omega
    · intro c hc
      rcases startNewChunk_chunks_sub st path c (by simpa using hc) with hm | hm
      · exact h2 c hm
      · subst hm; exact h3
    · right
      show ((startNewChunk st path).1.lines ++ [(path, seg)]).length ≤ 2
      rw [List.length_append]
      simpa using Nat.add_le_add e3 (Nat.le_refl 1)
  · simp only [hov, if_neg, ite_false]
    refine ⟨?_, h2, ?_⟩
    · show st.len + seg.length + 1 = chunkMeasure (st.lines ++ [(path, seg)])
      rw [chunkMeasure_append, chunkMeasure_single, h1]
      simp
      try omega
    · left
      show chunkMeasure (st.lines ++ [(path, seg)]) ≤ limit
      rw [chunkMeasure_append, chunkMeasure_single]
      simp only [Prod.snd]
      omega

theorem packInv_lineStep (limit : Nat) (path : List String) (st : PackState) (ln : String)
    (h : packInv limit st) : packInv limit (lineStep limit path st ln) := by
  unfold lineStep
  by_cases hov : (pyRstrip ln).length + st.len > limit
  · simp only [hov, if_pos]
    exact foldl_pres (packInv limit) (add_line limit path)
      (fun s a hs => packInv_add_line limit path s a hs) _ st h
  · simp only [hov, if_neg, ite_false]
    exact packInv_add_line limit path st (pyRstrip ln) h

theorem packInv_segStep (limit : Nat) (path : List String) (pfx : String) (st : PackState)
    (w : String) (h : packInv limit st) : packInv limit (segStep limit path pfx st w) := by
  unfold segStep
  exact packInv_add_line limit path st _ h

theorem packInv_processBlock (limit : Nat) (st : PackState) (b : Block)
    (h : packInv limit st) : packInv limit (processBlock limit st b) := by
  unfold processBlock
  have h1 : packInv limit (if st.bc ≠ some b.1 then freshFor st b.1 else st) := by
    by_cases hbc : st.bc ≠ some b.1
    · simpa [hbc] using packInv_freshFor limit st b.1 h
    · simpa [hbc] using h
  set st1 := if st.bc ≠ some b.1 then freshFor st b.1 else st with hst1
  have h2 : packInv limit
      (if is_qa_block b.2 = true ∧ st1.len + b.2.length + 1 > limit then freshFor st1 b.1
       else st1) := by
    by_cases hqa : is_qa_block b.2 = true ∧ st1.len + b.2.length + 1 > limit
    · simpa [hqa] using packInv_freshFor limit st1 b.1 h1
    · simpa [hqa] using h1
  set st2 := if is_qa_block b.2 = true ∧ st1.len + b.2.length + 1 > limit then freshFor st1 b.1
    else st1 with hst2
  by_cases hnl : b.2.data.contains '\n'
  · simp only [hnl, if_pos]
    exact foldl_pres (packInv limit) (lineStep limit b.1)
      (fun s a hs => packInv_lineStep limit b.1 s a hs) _ st2 h2
  · simp only [hnl, Bool.false_eq_true, if_neg, ite_false]
    by_cases hov : b.2.length + st2.len > limit
    · simp only [hov, if_pos]
      exact foldl_pres (packInv limit) (segStep limit b.1 _)
        (fun s a hs => packInv_segStep limit b.1 _ s a hs) _ st2 h2
    · simp only [hov, if_neg, ite_false]
      exact packInv_add_line limit b.1 st2 b.2 h2

theorem packInv_init (limit : Nat) : packInv limit initPackState := by
  refine ⟨rfl, by simp [initPackState], Or.inl ?_⟩
  simp [initPackState, chunkMeasure]

/-- C2 (amended): every produced chunk either keeps its accounted length
(header line plus one separator per line) within the limit, or consists of
at most two lines — the seeded header line and/or a single content segment
that could not fit even in a fresh chunk (an over-long header or an
over-long segment), emitted whole rather than truncated. -/
theorem chunk_size_bound_amended (blocks : List Block) (limit : Nat) :
    ∀ c ∈ chunkBlocksT blocks limit, chunkMeasure c ≤ limit ∨ c.length ≤ 2 := by
  intro c hc
  have hst : packInv limit (blocks.foldl (processBlock limit) initPackState) :=
    foldl_pres (packInv limit) (processBlock limit)
      (fun s a hs => packInv_processBlock limit s a hs) blocks initPackState (packInv_init limit)
  obtain ⟨h1, h2, h3⟩ := hst
  simp only [chunkBlocksT] at hc
  rcases List.mem_append.mp hc with hm | hm
  · exact h2 c hm
  · by_cases hl : (blocks.foldl (processBlock limit) initPackState).lines = []
    · simp [hl] at hm
    · simp only [hl, if_neg, ite_false] at hm
      have he : c = (blocks.foldl (processBlock limit) initPackState).lines := by
        simpa using hm
      subst he
      exact h3

/-- C2 witness: the amended bound applied to a one-block packing. -/
theorem chunk_size_bound_amended_witness :
    chunkMeasure [(([] : List String), "hi")] ≤ 50 ∨
      ([(([] : List String), "hi")] : List TLine).length ≤ 2 :=
  chunk_size_bound_amended [([], "hi")] 50 [([], "hi")] (by decide)

/-- C2 counterexample: under limit 50, a block whose breadcrumb renders a
51-character header yields chunks whose accounted length (52 and 58)
exceeds the limit although no whitespace-delimited token of their rendered
text is longer than 50 characters — the claim's sole sanctioned exception
does not apply. -/
theorem chunk_size_bound_counterexample :
    ∃ c ∈ chunkBlocksT [(["aaa bbb ccc ddd eee fff ggg hhh iii jjj kkk lll"], "hello")] 50,
      50 < chunkMeasure c ∧ ∀ t ∈ strTokens (renderChunk c), t.length ≤ 50 := by
  decide

theorem tagInv_fields (st : PackState) (path : List String)
    (h1 : st.bc = some path) (h2 : ∀ l ∈ st.lines, l.1 = path)
    (h3 : breadcrumb_header path ≠ "" →
      st.lines.head? = some (path, "### " ++ breadcrumb_header path))
    (h4 : ∀ c ∈ st.chunks, chunkOkTag c) : tagInv st := by
  refine ⟨?_, ?_, h4⟩
  · intro habs; rw [h1] at habs; cases habs
  · intro p hp
    rw [h1] at hp
    injection hp with hpp
    subst hpp
    exact ⟨h2, h3⟩

theorem tagInv_get (st : PackState) (path : List String) (h : tagInv st)
    (hbc : st.bc = some path) :
    (∀ l ∈ st.lines, l.1 = path) ∧
    (breadcrumb_header path ≠ "" →
      st.lines.head? = some (path, "### " ++ breadcrumb_header path)) ∧
    (∀ c ∈ st.chunks, chunkOkTag c) :=
  ⟨(h.2.1 path hbc).1, (h.2.1 path hbc).2, h.2.2⟩

theorem tagInv_lines_okTag (st : PackState) (h : tagInv st) (hne : st.lines ≠ []) :
    chunkOkTag st.lines := by
  rcases hbc : st.bc with _ | p
  · exact absurd (h.1 hbc) hne
  · obtain ⟨h2, h3, _⟩ := tagInv_get st p h hbc
    exact ⟨p, h2, h3⟩

theorem startNewChunk_chunks_sub2 (st : PackState) (path : List String) :
    ∀ c ∈ (startNewChunk st path).1.chunks, c ∈ st.chunks ∨ (c = st.lines ∧ st.lines ≠ []) := by
  intro c hc
  by_cases hl : st.lines = []
  · left
    have h : (startNewChunk st path).1.chunks = st.chunks := by
      unfold startNewChunk
      by_cases hh : breadcrumb_header path = "" <;> simp [hl, hh]
    rwa [h] at hc
  · have h : (startNewChunk st path).1.chunks = st.chunks ++ [st.lines] := by
      unfold startNewChunk
      by_cases hh : breadcrumb_header path = "" <;> simp [hl, hh]
    rw [h] at hc
    rcases List.mem_append.mp hc with h2 | h2
    · exact Or.inl h2
    · exact Or.inr ⟨by simpa using h2, hl⟩

theorem tagInv_freshFor (st : PackState) (path : List String) (h : tagInv st) :
    tagInv (freshFor st path) ∧ (freshFor st path).bc = some path := by
  have hbc : (freshFor st path).bc = some path := by
    show ({ (startNewChunk st path).1 with len := (startNewChunk st path).2 } : PackState).bc =
      some path
    simpa using startNewChunk_bc st path
  have hchunks : ∀ c ∈ (freshFor st path).chunks, chunkOkTag c := by
    intro c hc
    have hc2 : c ∈ (startNewChunk st path).1.chunks := hc
    rcases startNewChunk_chunks_sub2 st path c hc2 with hm | ⟨hm, hne⟩
    · exact h.2.2 c hm
    · subst hm; exact tagInv_lines_okTag st h hne
  have hlines : (freshFor st path).lines = (startNewChunk st path).1.lines := rfl
  refine ⟨tagInv_fields _ path hbc ?_ ?_ hchunks, hbc⟩
  · intro l hl
    rw [hlines] at hl
    rcases startNewChunk_lines st path with he | he <;> rw [he] at hl
    · cases hl
    · simp at hl; rw [hl]
  · intro hh
    rw [hlines]
    rcases startNewChunk_lines st path with he | he <;> rw [he]
    · exfalso
      have : (startNewChunk st path).1.lines = [] := he
      unfold startNewChunk at this
      simp only [hh, if_neg, ite_false] at this
      by_cases hl : st.lines = [] <;> simp [hl] at this
    · rfl

theorem add_line_cases (limit : Nat) (path : List String) (st : PackState) (seg : String) :
    ∃ st1 : PackState,
      (st1 = st ∨ st1 = { (startNewChunk st path).1 with
        len := headerLenOf (startNewChunk st path).1 }) ∧
      add_line limit path st seg =
        { st1 with lines := st1.lines ++ [(path, seg)], len := st1.len + seg.length + 1 } := by
  unfold add_line
  by_cases hov : st.len + seg.length + 1 > limit
  · exact ⟨_, Or.inr rfl, by simp [hov]⟩
  · exact ⟨st, Or.inl rfl, by simp [hov]⟩

theorem tagInv_startNew_any_len (st : PackState) (path : List String) (h : tagInv st)
    (lenv : Nat) :
    tagInv { (startNewChunk st path).1 with len := lenv } ∧
      ({ (startNewChunk st path).1 with len := lenv } : PackState).bc = some path := by
  have hbc : ({ (startNewChunk st path).1 with len := lenv } : PackState).bc = some path := by
    simpa using startNewChunk_bc st path
  have hchunks : ∀ c ∈ ({ (startNewChunk st path).1 with len := lenv } : PackState).chunks,
      chunkOkTag c := by
    intro c hc
    have hc2 : c ∈ (startNewChunk st path).1.chunks := hc
    rcases startNewChunk_chunks_sub2 st path c hc2 with hm | ⟨hm, hne⟩
    · exact h.2.2 c hm
    · subst hm; exact tagInv_lines_okTag st h hne
  refine ⟨tagInv_fields _ path hbc ?_ ?_ hchunks, hbc⟩
  · intro l hl
    have hl2 : l ∈ (startNewChunk st path).1.lines := hl
    rcases startNewChunk_lines st path with he | he <;> rw [he] at hl2
    · cases hl2
    · simp at hl2; rw [hl2]
  · intro hh
    show (startNewChunk st path).1.lines.head? = _
    rcases startNewChunk_lines st path with he | he <;> rw [he]
    · exfalso
      have he2 : (startNewChunk st path).1.lines = [] := he
      unfold startNewChunk at he2
      simp only [hh, if_neg, ite_false] at he2
      by_cases hl : st.lines = [] <;> simp [hl] at he2
    · rfl

theorem tagInv_add_line (limit : Nat) (path : List String) (st : PackState) (seg : String)
    (h : tagInv st) (hbc : st.bc = some path) :
    tagInv (add_line limit path st seg) ∧ (add_line limit path st seg).bc = some path := by
  obtain ⟨st1, hcase, heq⟩ := add_line_cases limit path st seg
  obtain ⟨hinv1, hbc1⟩ : tagInv st1 ∧ st1.bc = some path := by
    rcases hcase with rfl | rfl
    · exact ⟨h, hbc⟩
    · exact tagInv_startNew_any_len st path h _
  obtain ⟨g2, g3, g4⟩ := tagInv_get st1 path hinv1 hbc1
  rw [heq]
  have hbc2 :
      ({ st1 with lines := st1.lines ++ [(path, seg)], len := st1.len + seg.length + 1 } :
        PackState).bc = some path := by
    simpa using hbc1
  refine ⟨tagInv_fields _ path hbc2 ?_ ?_ ?_, hbc2⟩
  · intro l hl
    have hl2 : l ∈ st1.lines ++ [(path, seg)] := hl
    rcases List.mem_append.mp hl2 with hm | hm
    · exact g2 l hm
    · simp at hm; rw [hm]
  · intro hh
    have hs := g3 hh
    show (st1.lines ++ [(path, seg)]).head? = _
    cases hlns : st1.lines with
    | nil => rw [hlns] at hs; simp at hs
    | cons a tl =>
      rw [hlns] at hs
      simp only [List.cons_append, List.head?_cons] at hs ⊢
      exact hs
  · intro c hc
    exact g4 c hc

theorem tagInv_lineStep (limit : Nat) (path : List String) (st : PackState) (ln : String)
    (h : tagInv st ∧ st.bc = some path) :
    tagInv (lineStep limit path st ln) ∧ (lineStep limit path st ln).bc = some path := by
  unfold lineStep
  by_cases hov : (pyRstrip ln).length + st.len > limit
  · simp only [hov, if_pos]
    exact foldl_pres (fun s => tagInv s ∧ s.bc = some path) (add_line limit path)
      (fun s a hs => tagInv_add_line limit path s a hs.1 hs.2) _ st h
  · simp only [hov, if_neg, ite_false]
    exact tagInv_add_line limit path st _ h.1 h.2

theorem tagInv_segStep (limit : Nat) (path : List String) (pfx : String) (st : PackState)
    (w : String) (h : tagInv st ∧ st.bc = some path) :
    tagInv (segStep limit path pfx st w) ∧ (segStep limit path pfx st w).bc = some path := by
  unfold segStep
  exact tagInv_add_line limit path st _ h.1 h.2

theorem tagInv_freshFor_eq (st : PackState) (path : List String) (h : tagInv st) :
    tagInv (freshFor st path) ∧ (freshFor st path).bc = some path :=
  tagInv_startNew_any_len st path h _

theorem tagInv_processBlock (limit : Nat) (st : PackState) (b : Block) (h : tagInv st) :
    tagInv (processBlock limit st b) := by
  unfold processBlock
  have h1 : tagInv (if st.bc ≠ some b.1 then freshFor st b.1 else st) ∧
      (if st.bc ≠ some b.1 then freshFor st b.1 else st).bc = some b.1 := by
    by_cases hbc : st.bc ≠ some b.1
    · rw [if_pos hbc]; exact tagInv_freshFor_eq st b.1 h
    · rw [if_neg hbc]; exact ⟨h, not_not.mp hbc⟩
  set st1 := if st.bc ≠ some b.1 then freshFor st b.1 else st with hst1
  have h2 : tagInv (if is_qa_block b.2 = true ∧ st1.len + b.2.length + 1 > limit then
        freshFor st1 b.1 else st1) ∧
      (if is_qa_block b.2 = true ∧ st1.len + b.2.length + 1 > limit then
        freshFor st1 b.1 else st1).bc = some b.1 := by
    by_cases hqa : is_qa_block b.2 = true ∧ st1.len + b.2.length + 1 > limit
    · rw [if_pos hqa]; exact tagInv_freshFor_eq st1 b.1 h1.1
    · rw [if_neg hqa]; exact h1
  set st2 := if is_qa_block b.2 = true ∧ st1.len + b.2.length + 1 > limit then
    freshFor st1 b.1 else st1 with hst2
  by_cases hnl : b.2.data.contains '\n'
  · simp only [hnl, if_pos]
    exact (foldl_pres (fun s => tagInv s ∧ s.bc = some b.1) (lineStep limit b.1)
      (fun s a hs => tagInv_lineStep limit b.1 s a hs) _ st2 h2).1
  · simp only [hnl, Bool.false_eq_true, if_neg, ite_false]
    by_cases hov : b.2.length + st2.len > limit
    · simp only [hov, if_pos]
      exact (foldl_pres (fun s => tagInv s ∧ s.bc = some b.1) (segStep limit b.1 _)
        (fun s a hs => tagInv_segStep limit b.1 _ s a hs) _ st2 h2).1
    · simp only [hov, if_neg, ite_false]
      exact (tagInv_add_line limit b.1 st2 b.2 h2.1 h2.2).1

theorem tagInv_init : tagInv initPackState := by
  refine ⟨fun _ => rfl, ?_, by simp [initPackState]⟩
  intro p hp
  simp [initPackState] at hp

/-- C4 (amended): every chunk is made of lines contributed under a single
breadcrumb path (no block with a different path is placed in it), and
whenever that path renders a nonempty header (labels shortened at limit 80
and joined by " > "), the chunk starts with exactly that header line. A
non-empty path all of whose labels shorten to the empty string renders no
header, and the header shows the shortened labels, not the raw ones. -/
theorem breadcrumb_header_amended (blocks : List Block) (limit : Nat) :
    ∀ c ∈ chunkBlocksT blocks limit, chunkOkTag c := by
  intro c hc
  have hst : tagInv (blocks.foldl (processBlock limit) initPackState) :=
    foldl_pres tagInv (processBlock limit) (fun s a hs => tagInv_processBlock limit s a hs)
      blocks initPackState tagInv_init
  simp only [chunkBlocksT] at hc
  rcases List.mem_append.mp hc with hm | hm
  · exact hst.2.2 c hm
  · by_cases hl : (blocks.foldl (processBlock limit) initPackState).lines = []
    · simp [hl] at hm
    · simp only [hl, if_neg, ite_false] at hm
      have he : c = (blocks.foldl (processBlock limit) initPackState).lines := by
        simpa using hm
      subst he
      exact tagInv_lines_okTag _ hst hl

/-- C4 witness: the amended statement applied to a one-block packing whose
path renders the header "### T". -/
theorem breadcrumb_header_amended_witness :
    chunkOkTag [((["T"] : List String), "### T"), ((["T"] : List String), "x")] :=
  breadcrumb_header_amended [(["T"], "x")] 500 _ (by decide)

/-- C4 counterexample: the non-empty breadcrumb path `[""]` renders an
empty header, so its chunk is emitted without any "### " header line,
refuting the claim that every chunk with a non-empty path starts with a
header line. -/
theorem breadcrumb_header_counterexample :
    chunk_blocks [([""], "hello")] 500 = ["hello"] ∧
    (([""] : List String) ≠ []) ∧
    ¬ (List.isPrefixOf ['#', '#', '#'] "hello".data = true) :=
  ⟨by decide, by decide, by decide⟩

theorem splitCharAux_len (sep : Char) :
    ∀ (l acc : List Char),
      ((splitCharAux sep l acc).map List.length).sum + (splitCharAux sep l acc).length =
        l.length + acc.length + 1 := by
  intro l
  induction l with
  | nil => intro acc; simp [splitCharAux]
  | cons c cs ih =>
    intro acc
    by_cases hc : c = sep
    · have h := ih []
      simp only [splitCharAux, hc, if_pos, List.map_cons, List.sum_cons, List.length_cons,
        List.length_reverse]
      simp only [List.length_nil, Nat.add_zero] at h
      omega
    · have h := ih (c :: acc)
      simp only [splitCharAux, hc, if_neg, ite_false]
      simp only [List.length_cons] at h ⊢
      omega

theorem splitCharAux_ne_nil (sep : Char) :
    ∀ (l acc : List Char), splitCharAux sep l acc ≠ [] := by
  intro l
  induction l with
  | nil => intro acc; simp [splitCharAux]
  | cons c cs ih =>
    intro acc
    by_cases hc : c = sep
    · simp [splitCharAux, hc]
    · simpa [splitCharAux, hc] using ih (c :: acc)

theorem pySplit_ne_nil (s : String) (sep : Char) : pySplit s sep ≠ [] := by
  unfold pySplit splitChar
  intro h
  exact splitCharAux_ne_nil sep s.data [] (by simpa using h)

theorem pySplit_len_sum (s : String) (sep : Char) :
    ((pySplit s sep).map String.length).sum + (pySplit s sep).length = s.length + 1 := by
  have h := splitCharAux_len sep s.data []
  unfold pySplit splitChar
  have hmap : (((splitCharAux sep s.data []).map (fun l => (⟨l⟩ : String))).map String.length) =
      ((splitCharAux sep s.data []).map List.length) := by
    rw [List.map_map]
    rfl
  rw [hmap]
  simpa using h

theorem pyRstrip_length_le (s : String) : (pyRstrip s).length ≤ s.length := by
  have := rstripL_length_le s.data
  simpa [pyRstrip] using this

theorem qaTagLines_measure_le (path : List String) (text : String) :
    chunkMeasure (qaTagLines path text) ≤ text.length + 1 := by
  unfold qaTagLines chunkMeasure
  rw [List.map_map]
  have h1 : ∀ ln ∈ pySplit text '\n',
      ((fun l : TLine => l.2.length + 1) ∘ fun ln => ((path, pyRstrip ln) : TLine)) ln ≤
        ln.length + 1 := by
    intro ln _
    have := pyRstrip_length_le ln
    simp only [Function.comp]
    omega
  calc ((pySplit text '\n').map
          ((fun l : TLine => l.2.length + 1) ∘ fun ln => ((path, pyRstrip ln) : TLine))).sum
      ≤ ((pySplit text '\n').map (fun ln => ln.length + 1)).sum := List.sum_le_sum h1
    _ = ((pySplit text '\n').map String.length).sum + (pySplit text '\n').length := by
        induction pySplit text '\n' with
        | nil => simp
        | cons a l ih => simp [ih]; omega
    _ ≤ text.length + 1 := by rw [pySplit_len_sum]

theorem containsSeg_nl (l : List Char) (h : containsSeg ['\n', 'A', ':'] l = true) :
    l.contains '\n' = true := by
  induction l with
  | nil => simp [containsSeg] at h
  | cons c cs ih =>
    simp only [containsSeg, Bool.or_eq_true] at h
    rw [List.contains_cons]
    rcases h with h | h
    · have hc : c = '\n' := by
        cases hbeq : ('\n' == c) with
        | true => exact (beq_iff_eq.mp hbeq).symm
        | false => simp [List.isPrefixOf, hbeq] at h
      simp [hc]
    · have h2 := ih h
      simp only [List.contains, List.elem_eq_mem, decide_eq_true_eq] at h2
      simp [h2]

theorem is_qa_block_contains_nl (text : String) (h : is_qa_block text = true) :
    text.data.contains '\n' = true := by
  unfold is_qa_block at h
  refine containsSeg_nl text.data ?_
  simp only [Bool.and_eq_true] at h
  exact h.2

theorem add_line_fits (limit : Nat) (path : List String) (st : PackState) (seg : String)
    (h : ¬ st.len + seg.length + 1 > limit) :
    add_line limit path st seg =
      { st with lines := st.lines ++ [(path, seg)], len := st.len + seg.length + 1 } := by
  unfold add_line
  simp [h]

theorem startNewChunk_snd_pathBase (st : PackState) (path : List String) :
    (startNewChunk st path).2 = pathBase path := by
  unfold startNewChunk pathBase
  by_cases hh : breadcrumb_header path = "" <;> simp [hh, String.length_append]

theorem lineStep_fold_fits (limit : Nat) (path : List String) :
    ∀ (parts : List String) (st : PackState),
      st.len + ((parts.map (fun ln => (pyRstrip ln).length + 1)).sum) ≤ limit →
      parts.foldl (lineStep limit path) st =
        { st with
          lines := st.lines ++ parts.map (fun ln => ((path, pyRstrip ln) : TLine)),
          len := st.len + ((parts.map (fun ln => (pyRstrip ln).length + 1)).sum) } := by
  intro parts
  induction parts with
  | nil =>
    intro st h
    simp
  | cons ln parts ih =>
    intro st h
    simp only [List.map_cons, List.sum_cons] at h
    rw [List.foldl_cons]
    have hfit : ¬ ((pyRstrip ln).length + st.len > limit) := by omega
    have hfit2 : ¬ (st.len + (pyRstrip ln).length + 1 > limit) := by omega
    have hstep : lineStep limit path st ln = add_line limit path st (pyRstrip ln) := by
      unfold lineStep
      rw [if_neg hfit]
    rw [hstep, add_line_fits limit path st (pyRstrip ln) hfit2]
    rw [ih _ (by
      show st.len + (pyRstrip ln).length + 1 +
        ((parts.map (fun ln => (pyRstrip ln).length + 1)).sum) ≤ limit
      omega)]
    have hL : (st.lines ++ [((path, pyRstrip ln) : TLine)]) ++
        parts.map (fun ln => ((path, pyRstrip ln) : TLine)) =
        st.lines ++ (ln :: parts).map (fun ln => ((path, pyRstrip ln) : TLine)) := by
      simp
    have hN : st.len + (pyRstrip ln).length + 1 +
        ((parts.map (fun ln => (pyRstrip ln).length + 1)).sum) =
        st.len + (((ln :: parts).map (fun ln => (pyRstrip ln).length + 1)).sum) := by
      simp only [List.map_cons, List.sum_cons]
      omega
    rw [hL, hN]

theorem processBlock_qa_places (limit : Nat) (st : PackState) (b : Block)
    (hqa : is_qa_block b.2 = true)
    (hfit : pathBase b.1 + b.2.length + 1 ≤ limit) :
    qaPlaced (qaTagLines b.1 b.2) (processBlock limit st b) := by
  unfold processBlock
  set st1 := if st.bc ≠ some b.1 then freshFor st b.1 else st with hst1
  set st2 := if is_qa_block b.2 = true ∧ st1.len + b.2.length + 1 > limit then freshFor st1 b.1
    else st1 with hst2
  have hsum : ((pySplit b.2 '\n').map (fun ln => (pyRstrip ln).length + 1)).sum =
      chunkMeasure (qaTagLines b.1 b.2) := by
    unfold qaTagLines chunkMeasure
    rw [List.map_map]
    rfl
  have hlen2 : st2.len + chunkMeasure (qaTagLines b.1 b.2) ≤ limit := by
    have hmeas := qaTagLines_measure_le b.1 b.2
    rw [hst2]
    by_cases hq : is_qa_block b.2 = true ∧ st1.len + b.2.length + 1 > limit
    · rw [if_pos hq]
      have hlen : (freshFor st1 b.1).len = pathBase b.1 := by
        show ({ (startNewChunk st1 b.1).1 with
          len := (startNewChunk st1 b.1).2 } : PackState).len = _
        simpa using startNewChunk_snd_pathBase st1 b.1
      rw [hlen]
      omega
    · have hB : ¬ st1.len + b.2.length + 1 > limit := fun hb => hq ⟨hqa, hb⟩
      rw [if_neg hq]
      omega
  have hnl : b.2.data.contains '\n' = true := is_qa_block_contains_nl b.2 hqa
  rw [if_pos hnl]
  rw [lineStep_fold_fits limit b.1 (pySplit b.2 '\n') st2 (by rw [hsum]; exact hlen2)]
  right
  refine ⟨st2.lines, [], ?_⟩
  show st2.lines ++ (pySplit b.2 '\n').map (fun ln => ((b.1, pyRstrip ln) : TLine)) =
    st2.lines ++ qaTagLines b.1 b.2 ++ []
  rw [List.append_nil]
  rfl

theorem qaPlaced_freshAny (ql : List TLine) (st : PackState) (path : List String) (lenv : Nat)
    (hne : ql ≠ []) (h : qaPlaced ql st) :
    qaPlaced ql { (startNewChunk st path).1 with len := lenv } := by
  rcases h with ⟨c, hc, hseg⟩ | hseg
  · left
    refine ⟨c, ?_, hseg⟩
    show c ∈ (startNewChunk st path).1.chunks
    have hmono : st.chunks ⊆ (startNewChunk st path).1.chunks := by
      unfold startNewChunk
      by_cases hl : st.lines = [] <;> by_cases hh : breadcrumb_header path = "" <;>
        simp [hl, hh]
    exact hmono hc
  · left
    have hlne : st.lines ≠ [] := by
      obtain ⟨pre, post, he⟩ := hseg
      intro h0
      rw [h0] at he
      have := congrArg List.length he
      simp [List.length_append] at this
      exact hne (List.length_eq_zero.mp (by omega))
    refine ⟨st.lines, ?_, hseg⟩
    show st.lines ∈ (startNewChunk st path).1.chunks
    have hch : (startNewChunk st path).1.chunks = st.chunks ++ [st.lines] := by
      unfold startNewChunk
      by_cases hh : breadcrumb_header path = "" <;> simp [hlne, hh]
    rw [hch]
    simp

theorem qaPlaced_freshFor (ql : List TLine) (st : PackState) (path : List String)
    (hne : ql ≠ []) (h : qaPlaced ql st) : qaPlaced ql (freshFor st path) :=
  qaPlaced_freshAny ql st path _ hne h

theorem qaPlaced_add_line (limit : Nat) (path : List String) (ql : List TLine)
    (st : PackState) (seg : String) (hne : ql ≠ []) (h : qaPlaced ql st) :
    qaPlaced ql (add_line limit path st seg) := by
  obtain ⟨st1, hcase, heq⟩ := add_line_cases limit path st seg
  have h1 : qaPlaced ql st1 := by
    rcases hcase with rfl | rfl
    · exact h
    · exact qaPlaced_freshAny ql st path _ hne h
  rw [heq]
  rcases h1 with ⟨c, hc, hseg⟩ | ⟨pre, post, hseg⟩
  · exact Or.inl ⟨c, hc, hseg⟩
  · right
    refine ⟨pre, post ++ [(path, seg)], ?_⟩
    show st1.lines ++ [(path, seg)] = pre ++ ql ++ (post ++ [(path, seg)])
    rw [hseg]
    simp [List.append_assoc]

theorem qaPlaced_lineStep (limit : Nat) (path : List String) (ql : List TLine)
    (st : PackState) (ln : String) (hne : ql ≠ []) (h : qaPlaced ql st) :
    qaPlaced ql (lineStep limit path st ln) := by
  unfold lineStep
  by_cases hov : (pyRstrip ln).length + st.len > limit
  · simp only [hov, if_pos]
    exact foldl_pres (qaPlaced ql) (add_line limit path)
      (fun s a hs => qaPlaced_add_line limit path ql s a hne hs) _ st h
  · simp only [hov, if_neg, ite_false]
    exact qaPlaced_add_line limit path ql st _ hne h

theorem qaPlaced_segStep (limit : Nat) (path : List String) (pfx : String) (ql : List TLine)
    (st : PackState) (w : String) (hne : ql ≠ []) (h : qaPlaced ql st) :
    qaPlaced ql (segStep limit path pfx st w) := by
  unfold segStep
  exact qaPlaced_add_line limit path ql st _ hne h

theorem qaPlaced_processBlock (limit : Nat) (st : PackState) (b : Block) (ql : List TLine)
    (hne : ql ≠ []) (h : qaPlaced ql st) : qaPlaced ql (processBlock limit st b) := by
  unfold processBlock
  have h1 : qaPlaced ql (if st.bc ≠ some b.1 then freshFor st b.1 else st) := by
    by_cases hbc : st.bc ≠ some b.1
    · rw [if_pos hbc]; exact qaPlaced_freshFor ql st b.1 hne h
    · rw [if_neg hbc]; exact h
  set st1 := if st.bc ≠ some b.1 then freshFor st b.1 else st with hst1
  have h2 : qaPlaced ql (if is_qa_block b.2 = true ∧ st1.len + b.2.length + 1 > limit then
      freshFor st1 b.1 else st1) := by
    by_cases hqa : is_qa_block b.2 = true ∧ st1.len + b.2.length + 1 > limit
    · rw [if_pos hqa]; exact qaPlaced_freshFor ql st1 b.1 hne h1
    · rw [if_neg hqa]; exact h1
  set st2 := if is_qa_block b.2 = true ∧ st1.len + b.2.length + 1 > limit then freshFor st1 b.1
    else st1 with hst2
  by_cases hnl : b.2.data.contains '\n'
  · simp only [hnl, if_pos]
    exact foldl_pres (qaPlaced ql) (lineStep limit b.1)
      (fun s a hs => qaPlaced_lineStep limit b.1 ql s a hne hs) _ st2 h2
  · simp only [hnl, Bool.false_eq_true, if_neg, ite_false]
    by_cases hov : b.2.length + st2.len > limit
    · simp only [hov, if_pos]
      exact foldl_pres (qaPlaced ql) (segStep limit b.1 _)
        (fun s a hs => qaPlaced_segStep limit b.1 _ ql s a hne hs) _ st2 h2
    · simp only [hov, if_neg, ite_false]
      exact qaPlaced_add_line limit b.1 ql st2 b.2 hne h2

theorem qaTagLines_ne_nil (path : List String) (text : String) :
    qaTagLines path text ≠ [] := by
  unfold qaTagLines
  intro h
  exact pySplit_ne_nil text '\n' (by simpa using h)

/-- C3: a Q/A block whose whole text (together with the header a fresh
chunk would carry for its path) fits within the limit is never split: all
of its lines land contiguously inside a single produced chunk. -/
theorem qa_atomicity (blocks : List Block) (limit : Nat) (path : List String) (text : String)
    (hmem : (path, text) ∈ blocks) (hqa : is_qa_block text = true)
    (hfit : pathBase path + text.length + 1 ≤ limit) :
    ∃ c ∈ chunkBlocksT blocks limit, segIn (qaTagLines path text) c := by
  obtain ⟨l1, l2, rfl⟩ := List.append_of_mem hmem
  have hne : qaTagLines path text ≠ [] := qaTagLines_ne_nil path text
  have hplaced : qaPlaced (qaTagLines path text)
      ((l1 ++ (path, text) :: l2).foldl (processBlock limit) initPackState) := by
    rw [List.foldl_append, List.foldl_cons]
    exact foldl_pres (qaPlaced (qaTagLines path text)) (processBlock limit)
      (fun s a hs => qaPlaced_processBlock limit s a _ hne hs) l2 _
      (processBlock_qa_places limit (l1.foldl (processBlock limit) initPackState)
        (path, text) hqa hfit)
  set stF := (l1 ++ (path, text) :: l2).foldl (processBlock limit) initPackState with hstF
  rcases hplaced with ⟨c, hc, hseg⟩ | hseg
  · refine ⟨c, ?_, hseg⟩
    simp only [chunkBlocksT]
    exact List.mem_append.mpr (Or.inl hc)
  · refine ⟨stF.lines, ?_, hseg⟩
    simp only [chunkBlocksT]
    have hlne : stF.lines ≠ [] := by
      obtain ⟨pre, post, he⟩ := hseg
      intro h0
      rw [h0] at he
      have := congrArg List.length he
      simp [List.length_append] at this
      exact hne (List.length_eq_zero.mp (by omega))
    refine List.mem_append.mpr (Or.inr ?_)
    rw [if_neg hlne]
    simp only [List.mem_singleton]

/-- C3 witness: atomicity applied to a concrete Q/A block under limit 50. -/
theorem qa_atomicity_witness :
    ∃ c ∈ chunkBlocksT [(([] : List String), "Q: q?\nA: yes.")] 50,
      segIn (qaTagLines [] "Q: q?\nA: yes.") c :=
  qa_atomicity [([], "Q: q?\nA: yes.")] 50 [] "Q: q?\nA: yes."
    (by decide) (by decide) (by decide)

/-- C1: evaluation of the Q/A scan at the failing input. A question
followed by the two plain paragraphs "First." and "Second." collects only
"First." and consumes exactly one sibling: the first consumption detaches
the node, clearing the `next_sibling` the loop condition reads, so the
scan never reaches "Second." — contradicting the claim (and the spec's
forward-scan design) that every qualifying sibling is consumed into the
answer. -/
theorem collect_answer_single_consumption :
    collect_answer_content []
        [Node.tag "p" [Node.text "First."], Node.tag "p" [Node.text "Second."]]
      = (["First."], 1) ∧
    collect_answer_content []
        [Node.tag "p" [Node.text "A: Ten per year."]]
      = (["Ten per year."], 1) :=
  ⟨by decide, by decide⟩
